import Mathlib

/-!
# Verification of the code-duplication detection engine

A shallow embedding, in Lean 4, of the core data structures and operations of
the codeDuplicationParser repository:

* `TreeNode` (src/code_duplication/src/common/TreeNode.py) together with a
  model of Python's `ast.walk` breadth-first traversal;
* `PatternNode` (src/code_duplication/src/common/PatternNode.py) with its
  constructor, `add_nodes`, `add_children`, `__eq__` and `__ne__`;
* the database-facing analysis logic of src/web/analyzer.py
  (`_get_pattern_id`, `_extract_patterns`, `analyze_repo`) over an explicit
  in-memory store model, with `UserInputError`
  (src/engine/errors/user_input.py).

Python objects carry an object identity; `is`-comparisons and identity-based
set membership in `TreeNode.__init__` are modelled by giving every AST node an
object-identity tag `oid` and comparing tags.  A parse tree produced by
Python's `ast` module always has pairwise distinct node identities; the
predicate `WellFormed` captures exactly that.
-/

open scoped List

/-- A parsed AST node handle: object identity, grammar-class name
(`node.__class__.__name__`), the raw identifier/literal text when the node
carries one (`Name.id` / constant value), and the child nodes. -/
inductive ASTNode : Type where
  | mk : Nat → String → Option String → List ASTNode → ASTNode

def ASTNode.oid : ASTNode → Nat
  | .mk i _ _ _ => i

def ASTNode.kind : ASTNode → String
  | .mk _ k _ _ => k

def ASTNode.raw : ASTNode → Option String
  | .mk _ _ r _ => r

def ASTNode.children : ASTNode → List ASTNode
  | .mk _ _ _ cs => cs

mutual

/-- Number of nodes in the subtree (used only as a termination measure). -/
def nsize : ASTNode → Nat
  | .mk _ _ _ cs => 1 + nlistSize cs

def nlistSize : List ASTNode → Nat
  | [] => 0
  | n :: rest => nsize n + nlistSize rest

end

theorem nlistSize_append (a b : List ASTNode) :
    nlistSize (a ++ b) = nlistSize a + nlistSize b := by
  induction a with
  | nil => simp [nlistSize]
  | cons x xs ih =>
    rw [List.cons_append]
    show nsize x + nlistSize (xs ++ b) = nsize x + nlistSize xs + nlistSize b
    rw [ih]
    omega

theorem nsize_eq (n : ASTNode) : nsize n = 1 + nlistSize n.children := by
  cases n; rfl

/-- Breadth-first traversal queue step, following Python's `ast.walk`:
pop the head node, push its children at the back, yield the node. -/
def walkAux : List ASTNode → List ASTNode
  | [] => []
  | n :: rest => n :: walkAux (rest ++ n.children)
  termination_by q => nlistSize q
  decreasing_by
    simp only [nlistSize, nlistSize_append, nsize_eq]
    omega

/-- `ast.walk(node)`: the node followed by all its descendants in BFS order. -/
def walk (n : ASTNode) : List ASTNode := walkAux [n]

theorem nsize_le_of_mem {x : ASTNode} {l : List ASTNode} (h : x ∈ l) :
    nsize x ≤ nlistSize l := by
  induction l with
  | nil => cases h
  | cons y ys ih =>
    rcases List.mem_cons.mp h with rfl | h'
    · simp only [nlistSize]; omega
    · have := ih h'; simp only [nlistSize]; omega

theorem mem_walkAux_size {x : ASTNode} {q : List ASTNode} (hq : x ∈ walkAux q) :
    ∃ r ∈ q, nsize x ≤ nsize r := by
  induction q using walkAux.induct generalizing x with
  | case1 => simp [walkAux] at hq
  | case2 n rest ih =>
    rw [walkAux] at hq
    rcases List.mem_cons.mp hq with rfl | h'
    · exact ⟨x, List.mem_cons_self _ _, le_refl _⟩
    · obtain ⟨r, hr, hle⟩ := ih h'
      rcases List.mem_append.mp hr with h1 | h2
      · exact ⟨r, List.mem_cons_of_mem _ h1, hle⟩
      · refine ⟨n, List.mem_cons_self _ _, ?_⟩
        have := nsize_le_of_mem h2
        rw [nsize_eq n]
        omega

theorem walk_eq (n : ASTNode) : walk n = n :: walkAux n.children := by
  rw [walk, walkAux, List.nil_append]

theorem nsize_lt_of_mem_walk {x n : ASTNode} (h : x ∈ walk n) (hne : x ≠ n) :
    nsize x < nsize n := by
  rw [walk_eq] at h
  rcases List.mem_cons.mp h with rfl | h'
  · exact absurd rfl hne
  · obtain ⟨r, hr, hle⟩ := mem_walkAux_size h'
    have := nsize_le_of_mem hr
    rw [nsize_eq n]
    omega

/-- `self.child_nodes`: every walked node other than the node itself
(`x is not self.node`, identity modelled by the `oid` tag). -/
def childNodes (n : ASTNode) : List ASTNode :=
  (walk n).filter (fun x => x.oid != n.oid)

/-- `grandchild_nodes`: for every strict descendant, its own strict
descendants (an identity set in Python; a list with `oid`-membership here). -/
def grandchildNodes (n : ASTNode) : List ASTNode :=
  (childNodes n).flatMap (fun c => (walk c).filter (fun x => x.oid != c.oid))

/-- The AST nodes kept for `self.direct_children`: strict descendants that are
not in the grandchild set. -/
def directChildAsts (n : ASTNode) : List ASTNode :=
  (childNodes n).filter (fun x => !((grandchildNodes n).any (fun g => g.oid == x.oid)))

theorem nsize_lt_of_mem_directChildAsts {x n : ASTNode} (h : x ∈ directChildAsts n) :
    nsize x < nsize n := by
  have h1 : x ∈ childNodes n := List.mem_of_mem_filter h
  have h2 := List.mem_filter.mp h1
  apply nsize_lt_of_mem_walk h2.1
  intro heq
  subst heq
  simp at h2

/-- `self.labels`: the identifier names of all `Name` nodes in the subtree
(a Python set of strings; deduplicated list here). -/
def labelsOf (n : ASTNode) : List String :=
  ((walk n).filterMap (fun x => if x.kind == "Name" then x.raw else none)).eraseDups

/-- The `TreeNode` wrapper around a parsed node, in field order:
`node`, `value`, `all_nodes`, `child_nodes`, `direct_children`, `labels`. -/
inductive TreeNode : Type where
  | mk : ASTNode → String → List ASTNode → List ASTNode → List TreeNode →
      List String → TreeNode

def TreeNode.node : TreeNode → ASTNode
  | .mk n _ _ _ _ _ => n

def TreeNode.value : TreeNode → String
  | .mk _ v _ _ _ _ => v

def TreeNode.all_nodes : TreeNode → List ASTNode
  | .mk _ _ a _ _ _ => a

def TreeNode.child_nodes : TreeNode → List ASTNode
  | .mk _ _ _ c _ _ => c

def TreeNode.direct_children : TreeNode → List TreeNode
  | .mk _ _ _ _ d _ => d

def TreeNode.labels : TreeNode → List String
  | .mk _ _ _ _ _ l => l

/-- `TreeNode.__init__`: stores the node, sets `value` to the node's class
name (for every node, leaves included), flattens the subtree with `ast.walk`,
derives `child_nodes`, `direct_children` (recursively wrapped) and `labels`. -/
def TreeNode.init (n : ASTNode) : TreeNode :=
  TreeNode.mk n n.kind (walk n) (childNodes n)
    ((directChildAsts n).attach.map (fun x => TreeNode.init x.1))
    (labelsOf n)
  termination_by nsize n
  decreasing_by
    exact nsize_lt_of_mem_directChildAsts x.2

theorem TreeNode.init_eq (n : ASTNode) : TreeNode.init n =
    TreeNode.mk n n.kind (walk n) (childNodes n)
      ((directChildAsts n).map TreeNode.init) (labelsOf n) := by
  rw [TreeNode.init]
  rw [List.attach_map_coe (directChildAsts n) TreeNode.init]

/-! ## Depth-first flattening (proof-side view of the subtree) -/

mutual

/-- All nodes of the subtree in DFS order: the node followed by the flattened
children.  Used to reason about `walk`, which lists the same nodes in BFS
order. -/
def flatten : ASTNode → List ASTNode
  | .mk i k r cs => .mk i k r cs :: flattenList cs

def flattenList : List ASTNode → List ASTNode
  | [] => []
  | c :: cs => flatten c ++ flattenList cs

end

theorem flatten_eq (n : ASTNode) : flatten n = n :: flattenList n.children := by
  cases n; rfl

theorem flattenList_append (a b : List ASTNode) :
    flattenList (a ++ b) = flattenList a ++ flattenList b := by
  induction a with
  | nil => rfl
  | cons x xs ih =>
    rw [List.cons_append]
    show flatten x ++ flattenList (xs ++ b) = (flatten x ++ flattenList xs) ++ flattenList b
    rw [ih, List.append_assoc]

theorem mem_flattenList {a : ASTNode} {l : List ASTNode} :
    a ∈ flattenList l ↔ ∃ c ∈ l, a ∈ flatten c := by
  induction l with
  | nil => simp [flattenList]
  | cons x xs ih =>
    show a ∈ flatten x ++ flattenList xs ↔ _
    rw [List.mem_append, ih]
    constructor
    · rintro (h | ⟨c, hc, hac⟩)
      · exact ⟨x, List.mem_cons_self _ _, h⟩
      · exact ⟨c, List.mem_cons_of_mem _ hc, hac⟩
    · rintro ⟨c, hc, hac⟩
      rcases List.mem_cons.mp hc with rfl | hc'
      · exact Or.inl hac
      · exact Or.inr ⟨c, hc', hac⟩

theorem self_mem_flatten (n : ASTNode) : n ∈ flatten n := by
  rw [flatten_eq]; exact List.mem_cons_self _ _

/-- BFS queue decomposition: processing `q₁ ++ q₂` yields `q₁` first, with the
children of `q₁` queued behind `q₂`. -/
theorem walkAux_append (q1 : List ASTNode) : ∀ q2 : List ASTNode,
    walkAux (q1 ++ q2) = q1 ++ walkAux (q2 ++ q1.flatMap ASTNode.children) := by
  induction q1 with
  | nil => intro q2; simp
  | cons n q1' ih =>
    intro q2
    rw [List.cons_append, walkAux, List.append_assoc, ih (q2 ++ n.children)]
    simp [List.append_assoc]

/-- One BFS round: `walkAux q` lists `q`, then walks the concatenation of all
children of `q`. -/
theorem walkAux_decomp (q : List ASTNode) :
    walkAux q = q ++ walkAux (q.flatMap ASTNode.children) := by
  have h := walkAux_append q []
  simpa using h

/-- The BFS traversal is a permutation of the DFS flattening. -/
theorem walkAux_perm_flattenList (q : List ASTNode) : walkAux q ~ flattenList q := by
  induction q using walkAux.induct with
  | case1 => rw [walkAux]; rfl
  | case2 n rest ih =>
    rw [walkAux]
    show n :: walkAux (rest ++ n.children) ~ flatten n ++ flattenList rest
    calc n :: walkAux (rest ++ n.children)
        ~ n :: flattenList (rest ++ n.children) := ih.cons n
      _ = n :: (flattenList rest ++ flattenList n.children) := by rw [flattenList_append]
      _ ~ n :: (flattenList n.children ++ flattenList rest) :=
          List.perm_append_comm.cons n
      _ = (n :: flattenList n.children) ++ flattenList rest := rfl
      _ = flatten n ++ flattenList rest := by rw [← flatten_eq]

theorem walk_perm_flatten (n : ASTNode) : walk n ~ flatten n := by
  rw [walk_eq, flatten_eq]
  exact (walkAux_perm_flattenList n.children).cons n

/-! ## Multiset containment along the subtree order -/

theorem mset_flattenList (l : List ASTNode) :
    (flattenList l : Multiset ASTNode) =
      (l.map (fun c => (flatten c : Multiset ASTNode))).sum := by
  induction l with
  | nil => rfl
  | cons x xs ih =>
    show ((flatten x ++ flattenList xs : List ASTNode) : Multiset ASTNode) = _
    rw [← Multiset.coe_add, ih]
    simp

/-- Strong induction over the AST: to prove `P` everywhere it suffices to
prove it at each node assuming it for all children. -/
theorem ASTNode.treeStrongInd (P : ASTNode → Prop)
    (h : ∀ m, (∀ c ∈ m.children, P c) → P m) : ∀ m, P m
  | m => h m (fun c hc => ASTNode.treeStrongInd P h c)
  termination_by m => nsize m
  decreasing_by
    have := nsize_le_of_mem hc
    rw [nsize_eq m]
    omega

theorem flattenList_sub_of_mem {c : ASTNode} {l : List ASTNode} (h : c ∈ l) :
    (flatten c : Multiset ASTNode) ≤ (flattenList l : Multiset ASTNode) := by
  induction l with
  | nil => cases h
  | cons x xs ih =>
    have hstep : (flattenList (x :: xs) : Multiset ASTNode)
        = (flatten x : Multiset ASTNode) + (flattenList xs : Multiset ASTNode) := by
      show ((flatten x ++ flattenList xs : List ASTNode) : Multiset ASTNode) = _
      rw [Multiset.coe_add]
    rcases List.mem_cons.mp h with rfl | h'
    · rw [hstep]; exact le_add_right (le_refl _)
    · rw [hstep]; exact le_add_left (ih h')

theorem flatten_sub_of_mem {m : ASTNode} :
    ∀ a ∈ flatten m, (flatten a : Multiset ASTNode) ≤ (flatten m : Multiset ASTNode) := by
  induction m using ASTNode.treeStrongInd with
  | _ m ih =>
    intro a ha
    rw [flatten_eq] at ha
    rcases List.mem_cons.mp ha with rfl | ha'
    · exact le_refl _
    · obtain ⟨c, hc, hac⟩ := mem_flattenList.mp ha'
      calc (flatten a : Multiset ASTNode)
          ≤ (flatten c : Multiset ASTNode) := ih c hc a hac
        _ ≤ (flattenList m.children : Multiset ASTNode) := flattenList_sub_of_mem hc
        _ ≤ (flatten m : Multiset ASTNode) := by
            rw [flatten_eq m, ← Multiset.cons_coe]
            exact Multiset.le_cons_self _ _

theorem flatten_sub_of_mem_list {a : ASTNode} {l : List ASTNode}
    (h : a ∈ flattenList l) :
    (flatten a : Multiset ASTNode) ≤ (flattenList l : Multiset ASTNode) := by
  obtain ⟨c, hc, hac⟩ := mem_flattenList.mp h
  exact le_trans (flatten_sub_of_mem a hac) (flattenList_sub_of_mem hc)

/-- A parse tree is well formed when all its nodes have pairwise distinct
object identities — always true for a tree freshly produced by `ast.parse`. -/
def WellFormed (n : ASTNode) : Prop :=
  ((flatten n).map ASTNode.oid).Nodup

/-! ## Counting object identities -/

/-- Number of occurrences of the object identity `a` in a bag of nodes. -/
def ocount (a : Nat) (s : Multiset ASTNode) : Nat :=
  (s.map ASTNode.oid).count a

theorem ocount_mono {s t : Multiset ASTNode} (h : s ≤ t) (a : Nat) :
    ocount a s ≤ ocount a t :=
  Multiset.count_le_of_le a (Multiset.map_le_map h)

theorem ocount_add (a : Nat) (s t : Multiset ASTNode) :
    ocount a (s + t) = ocount a s + ocount a t := by
  simp [ocount]

theorem ocount_flatten (m : ASTNode) (a : Nat) :
    ocount a (flatten m : Multiset ASTNode) =
      ocount a (flattenList m.children : Multiset ASTNode) +
        (if a = m.oid then 1 else 0) := by
  conv_lhs => rw [flatten_eq m, ← Multiset.cons_coe]
  simp only [ocount, Multiset.map_cons, Multiset.count_cons]

theorem ocount_pos_of_mem {g : ASTNode} {s : Multiset ASTNode} (h : g ∈ s) :
    1 ≤ ocount g.oid s :=
  Multiset.count_pos.mpr (Multiset.mem_map_of_mem _ h)

theorem wf_ocount_le_one {n : ASTNode} (hwf : WellFormed n) (a : Nat) :
    ocount a (flatten n : Multiset ASTNode) ≤ 1 := by
  have hnd : Multiset.Nodup (((flatten n).map ASTNode.oid : List Nat) : Multiset Nat) :=
    Multiset.coe_nodup.mpr hwf
  have := (Multiset.nodup_iff_count_le_one.mp hnd) a
  rw [ocount, Multiset.map_coe]
  exact this

theorem flattenList_children_le (m : ASTNode) :
    (flattenList m.children : Multiset ASTNode) ≤ (flatten m : Multiset ASTNode) := by
  rw [flatten_eq m, ← Multiset.cons_coe]
  exact Multiset.le_cons_self _ _

theorem oid_ne_of_mem_strict {m g : ASTNode} (hwf : WellFormed m)
    (hg : g ∈ flattenList m.children) : g.oid ≠ m.oid := by
  intro heq
  have h1 : 1 ≤ ocount g.oid (flattenList m.children : Multiset ASTNode) :=
    ocount_pos_of_mem (Multiset.mem_coe.mpr hg)
  have h2 := ocount_flatten m g.oid
  rw [if_pos heq] at h2
  have h3 := wf_ocount_le_one hwf g.oid
  omega

theorem wellFormed_sub {n a : ASTNode} (hwf : WellFormed n) (ha : a ∈ flatten n) :
    WellFormed a := by
  have hle := flatten_sub_of_mem a ha
  have hmap : ((flatten a).map ASTNode.oid : Multiset Nat) ≤
      ((flatten n).map ASTNode.oid : Multiset Nat) := by
    rw [← Multiset.map_coe, ← Multiset.map_coe]
    exact Multiset.map_le_map hle
  have hnd : Multiset.Nodup (((flatten n).map ASTNode.oid : List Nat) : Multiset Nat) :=
    Multiset.coe_nodup.mpr hwf
  exact Multiset.coe_nodup.mp (Multiset.nodup_of_le hmap hnd)

theorem flattenList_pair_le {x y : ASTNode} {l : List ASTNode} (hx : x ∈ l)
    (hy : y ∈ l) (hne : x ≠ y) :
    (flatten x : Multiset ASTNode) + (flatten y : Multiset ASTNode) ≤
      (flattenList l : Multiset ASTNode) := by
  induction l with
  | nil => cases hx
  | cons a as ih =>
    have hstep : (flattenList (a :: as) : Multiset ASTNode) =
        (flatten a : Multiset ASTNode) + (flattenList as : Multiset ASTNode) := by
      show ((flatten a ++ flattenList as : List ASTNode) : Multiset ASTNode) = _
      rw [Multiset.coe_add]
    rcases List.mem_cons.mp hx with rfl | hx'
    · have hy' : y ∈ as := by
        rcases List.mem_cons.mp hy with rfl | h
        · exact absurd rfl hne
        · exact h
      rw [hstep]
      exact add_le_add_left (flattenList_sub_of_mem hy') _
    · rcases List.mem_cons.mp hy with rfl | hy'
      · rw [hstep, add_comm ((flatten x : Multiset ASTNode)) _]
        exact add_le_add_left (flattenList_sub_of_mem hx') _
      · rw [hstep]
        exact le_add_left (ih hx' hy')

/-- In a well-formed tree, no node at depth two or more below the root shares
an object identity with a direct child of the root. -/
theorem oid_ne_of_depth_two {n x c' g : ASTNode} (hwf : WellFormed n)
    (hx : x ∈ n.children) (hc' : c' ∈ flattenList n.children)
    (hg : g ∈ flattenList c'.children) : g.oid ≠ x.oid := by
  intro heq
  have htop : ocount x.oid (flatten n : Multiset ASTNode) ≤ 1 := wf_ocount_le_one hwf _
  have hgoal : 2 ≤ ocount x.oid (flattenList n.children : Multiset ASTNode) := by
    obtain ⟨ci, hci, hc'in⟩ := mem_flattenList.mp hc'
    have hgmem : g ∈ flatten c' := by
      rw [flatten_eq]; exact List.mem_cons_of_mem _ hg
    by_cases hxc : x = ci
    · subst hxc
      have h2 : 1 ≤ ocount x.oid (flattenList x.children : Multiset ASTNode) := by
        by_cases hcx : c' = x
        · subst hcx
          have := ocount_pos_of_mem (Multiset.mem_coe.mpr hg)
          rw [heq] at this
          exact this
        · have hc'mem : c' ∈ flattenList x.children := by
            rw [flatten_eq] at hc'in
            rcases List.mem_cons.mp hc'in with h | h
            · exact absurd h hcx
            · exact h
          have hle := flatten_sub_of_mem_list hc'mem
          have hpos := ocount_pos_of_mem (Multiset.mem_coe.mpr hgmem)
          rw [heq] at hpos
          exact le_trans hpos (ocount_mono hle _)
      have h3 : 2 ≤ ocount x.oid (flatten x : Multiset ASTNode) := by
        rw [ocount_flatten x x.oid, if_pos rfl]
        omega
      exact le_trans h3 (ocount_mono (flattenList_sub_of_mem hx) _)
    · have hpair := flattenList_pair_le hx hci hxc
      have hocc1 : 1 ≤ ocount x.oid (flatten x : Multiset ASTNode) :=
        ocount_pos_of_mem (Multiset.mem_coe.mpr (self_mem_flatten x))
      have hocc2 : 1 ≤ ocount x.oid (flatten ci : Multiset ASTNode) := by
        have hle := flatten_sub_of_mem c' hc'in
        have hpos := ocount_pos_of_mem (Multiset.mem_coe.mpr hgmem)
        rw [heq] at hpos
        exact le_trans hpos (ocount_mono hle _)
      have hsum : 2 ≤ ocount x.oid
          ((flatten x : Multiset ASTNode) + (flatten ci : Multiset ASTNode)) := by
        rw [ocount_add]
        omega
      exact le_trans hsum (ocount_mono hpair _)
  have := ocount_mono (flattenList_children_le n) x.oid
  omega

/-! ## Characterisation of the derived children under well-formedness -/

theorem mem_flattenList_of_mem_walkAux {x : ASTNode} {q : List ASTNode}
    (h : x ∈ walkAux q) : x ∈ flattenList q :=
  (walkAux_perm_flattenList q).mem_iff.mp h

theorem mem_walkAux_of_mem_flattenList {x : ASTNode} {q : List ASTNode}
    (h : x ∈ flattenList q) : x ∈ walkAux q :=
  (walkAux_perm_flattenList q).mem_iff.mpr h

/-- In a well-formed tree the `child_nodes` filter removes exactly the root:
it keeps the whole BFS tail. -/
theorem childNodes_eq {n : ASTNode} (hwf : WellFormed n) :
    childNodes n = walkAux n.children := by
  rw [childNodes, walk_eq, List.filter_cons]
  simp only [bne_self_eq_false, Bool.false_eq_true, if_false]
  apply List.filter_eq_self.mpr
  intro x hx
  have hmem := mem_flattenList_of_mem_walkAux hx
  have hne := oid_ne_of_mem_strict hwf hmem
  simpa [bne] using hne

/-- In a well-formed tree no member of the grandchild set shares an identity
with a direct child of the root. -/
theorem grandchild_oid_ne {n x g : ASTNode} (hwf : WellFormed n)
    (hx : x ∈ n.children) (hg : g ∈ grandchildNodes n) : g.oid ≠ x.oid := by
  rw [grandchildNodes] at hg
  obtain ⟨c', hc', hgf⟩ := List.mem_flatMap.mp hg
  have hgw := List.mem_filter.mp hgf
  have hgne : g.oid ≠ c'.oid := by simpa [bne] using hgw.2
  have hc'f : c' ∈ flattenList n.children := by
    rw [childNodes_eq hwf] at hc'
    exact mem_flattenList_of_mem_walkAux hc'
  have hgfl : g ∈ flatten c' := (walk_perm_flatten c').mem_iff.mp hgw.1
  have hgstrict : g ∈ flattenList c'.children := by
    rw [flatten_eq] at hgfl
    rcases List.mem_cons.mp hgfl with rfl | h
    · exact absurd rfl hgne
    · exact h
  exact oid_ne_of_depth_two hwf hx hc'f hgstrict

/-- Every node of the second BFS round onwards belongs to the grandchild set
(witnessed by itself), in a well-formed tree. -/
theorem mem_grandchild_of_mem_tail {n x : ASTNode} (hwf : WellFormed n)
    (hx : x ∈ walkAux (n.children.flatMap ASTNode.children)) :
    x ∈ grandchildNodes n := by
  have hfl := mem_flattenList_of_mem_walkAux hx
  obtain ⟨d, hd, hxd⟩ := mem_flattenList.mp hfl
  obtain ⟨ci, hci, hdci⟩ := List.mem_flatMap.mp hd
  rw [grandchildNodes]
  apply List.mem_flatMap.mpr
  refine ⟨ci, ?_, ?_⟩
  · rw [childNodes_eq hwf, walkAux_decomp]
    exact List.mem_append_left _ hci
  · have hxfl_ci : x ∈ flattenList ci.children := mem_flattenList.mpr ⟨d, hdci, hxd⟩
    have hcif : ci ∈ flatten n := by
      rw [flatten_eq]
      exact List.mem_cons_of_mem _ (mem_flattenList.mpr ⟨ci, hci, self_mem_flatten ci⟩)
    have hwfci : WellFormed ci := wellFormed_sub hwf hcif
    have hxw : x ∈ walk ci := by
      apply (walk_perm_flatten ci).mem_iff.mpr
      rw [flatten_eq]
      exact List.mem_cons_of_mem _ hxfl_ci
    have hne : x.oid ≠ ci.oid := oid_ne_of_mem_strict hwfci hxfl_ci
    exact List.mem_filter.mpr ⟨hxw, by simpa [bne] using hne⟩

/-- In a well-formed tree the parent-less child derivation recovers exactly
the node's direct children, in order. -/
theorem directChildAsts_eq {n : ASTNode} (hwf : WellFormed n) :
    directChildAsts n = n.children := by
  rw [directChildAsts, childNodes_eq hwf, walkAux_decomp, List.filter_append]
  have h1 : n.children.filter
      (fun x => !((grandchildNodes n).any (fun g => g.oid == x.oid))) = n.children := by
    apply List.filter_eq_self.mpr
    intro x hx
    simp only [Bool.not_eq_eq_eq_not, Bool.not_true, List.any_eq_false]
    intro g hg
    have := grandchild_oid_ne hwf hx hg
    simpa using this
  have h2 : (walkAux (n.children.flatMap ASTNode.children)).filter
      (fun x => !((grandchildNodes n).any (fun g => g.oid == x.oid))) = [] := by
    apply List.filter_eq_nil_iff.mpr
    intro x hx
    have hmem := mem_grandchild_of_mem_tail hwf hx
    have hany : (grandchildNodes n).any (fun g => g.oid == x.oid) = true :=
      List.any_eq_true.mpr ⟨x, hmem, by simp⟩
    simp [hany]
  rw [h1, h2, List.append_nil]

/-- Partition property of the wrapper: the flattened subtree is the root plus
the disjoint union of the flattened subtrees of the direct children. -/
theorem treeNode_partition {n : ASTNode} (hwf : WellFormed n) :
    ((TreeNode.init n).all_nodes : Multiset ASTNode) =
      (TreeNode.init n).node ::ₘ
        (((TreeNode.init n).direct_children).map
          (fun c => ((c.all_nodes : List ASTNode) : Multiset ASTNode))).sum
    ∧ ((TreeNode.init n).all_nodes).Nodup := by
  have hmap : (n.children.map TreeNode.init).map
        (fun c => ((c.all_nodes : List ASTNode) : Multiset ASTNode))
      = n.children.map (fun c => ((flatten c : List ASTNode) : Multiset ASTNode)) := by
    rw [List.map_map]
    apply List.map_congr_left
    intro a _
    show ((TreeNode.init a).all_nodes : Multiset ASTNode) = _
    rw [TreeNode.init_eq]
    show ((walk a : List ASTNode) : Multiset ASTNode) = _
    exact Multiset.coe_eq_coe.mpr (walk_perm_flatten a)
  constructor
  · rw [TreeNode.init_eq]
    show ((walk n : List ASTNode) : Multiset ASTNode) =
      n ::ₘ (((directChildAsts n).map TreeNode.init).map
        (fun c => ((c.all_nodes : List ASTNode) : Multiset ASTNode))).sum
    rw [directChildAsts_eq hwf, hmap, ← mset_flattenList, Multiset.cons_coe]
    apply Multiset.coe_eq_coe.mpr
    rw [← flatten_eq]
    exact walk_perm_flatten n
  · rw [TreeNode.init_eq]
    show (walk n).Nodup
    have h1 : (flatten n).Nodup := List.Nodup.of_map _ hwf
    exact ((walk_perm_flatten n).nodup_iff).mpr h1

/-! ## PatternNode (src/code_duplication/src/common/PatternNode.py) -/

/-- `PatternNode`, in field order: `nodes` (member TreeNodes), `weight`,
`value` (canonical value string), `children`. -/
inductive PatternNode : Type where
  | mk : List TreeNode → Int → String → List PatternNode → PatternNode

def PatternNode.nodes : PatternNode → List TreeNode
  | .mk ns _ _ _ => ns

def PatternNode.weight : PatternNode → Int
  | .mk _ w _ _ => w

def PatternNode.value : PatternNode → String
  | .mk _ _ v _ => v

def PatternNode.children : PatternNode → List PatternNode
  | .mk _ _ _ cs => cs

/-- `PatternNode.__init__(node1, node2, weight, value=None)`: member list is
the two nodes, `value` falls back to the hole marker string embedding the
weight when the given value is falsy (`None` or the empty string), children
start empty. -/
def PatternNode.init (node1 node2 : TreeNode) (weight : Int)
    (value : Option String) : PatternNode :=
  PatternNode.mk [node1, node2] weight
    (match value with
      | none => "Hole(weight=" ++ toString weight ++ ")"
      | some v => if v = "" then "Hole(weight=" ++ toString weight ++ ")" else v)
    []

/-- `PatternNode.add_nodes(*nodes)`: extend the member list. -/
def PatternNode.add_nodes (p : PatternNode) (ns : List TreeNode) : PatternNode :=
  PatternNode.mk (p.nodes ++ ns) p.weight p.value p.children

/-- `PatternNode.add_children(*children)`: extend the children list. -/
def PatternNode.add_children (p : PatternNode) (cs : List PatternNode) : PatternNode :=
  PatternNode.mk p.nodes p.weight p.value (p.children ++ cs)

mutual

/-- `PatternNode.__eq__`: false when the values differ or the child counts
differ, otherwise the pairwise comparison of the children (each child of
`other` compared against the child of `self` at the same index). -/
def PatternNode.beq : PatternNode → PatternNode → Bool
  | .mk _ _ v c, .mk _ _ v' c' =>
    v' == v && c'.length == c.length && beqChildren c' c
  termination_by p q => sizeOf p + sizeOf q

/-- Pairwise `__eq__` over two child lists (index-aligned, as in the Python
loop; the list lengths are always equal at call sites thanks to the length
guard in `PatternNode.beq`). -/
def beqChildren : List PatternNode → List PatternNode → Bool
  | [], _ => true
  | _ :: _, [] => true
  | x :: xs, y :: ys => PatternNode.beq x y && beqChildren xs ys
  termination_by l m => sizeOf l + sizeOf m

end

/-- `PatternNode.__ne__`: the negation of `__eq__`. -/
def PatternNode.ne (p q : PatternNode) : Bool :=
  !(PatternNode.beq p q)

/-! ## Properties of PatternNode structural equality -/

theorem PatternNode.sizeOf_lt_of_mem_children {c p : PatternNode}
    (h : c ∈ p.children) : sizeOf c < sizeOf p := by
  cases p with
  | mk ns w v cs =>
    simp only [PatternNode.children] at h
    have := List.sizeOf_lt_of_mem h
    simp only [PatternNode.mk.sizeOf_spec]
    omega

/-- Strong induction over a pattern: prove `P` at each node assuming it for
all children. -/
theorem PatternNode.patStrongInd (P : PatternNode → Prop)
    (h : ∀ p, (∀ c ∈ p.children, P c) → P p) : ∀ p, P p
  | p => h p (fun c hc => PatternNode.patStrongInd P h c)
  termination_by p => sizeOf p
  decreasing_by
    exact PatternNode.sizeOf_lt_of_mem_children hc

theorem beqChildren_refl_of (l : List PatternNode)
    (h : ∀ c ∈ l, PatternNode.beq c c = true) : beqChildren l l = true := by
  induction l with
  | nil => rw [beqChildren]
  | cons x xs ih =>
    rw [beqChildren, h x (List.mem_cons_self _ _),
      ih (fun c hc => h c (List.mem_cons_of_mem _ hc))]
    rfl

theorem PatternNode.beq_refl (p : PatternNode) : PatternNode.beq p p = true := by
  induction p using PatternNode.patStrongInd with
  | _ p ih =>
    cases p with
    | mk ns w v cs =>
      rw [PatternNode.beq]
      simp only [beq_self_eq_true, Bool.true_and]
      exact beqChildren_refl_of cs ih

theorem beqChildren_symm_of (l : List PatternNode)
    (h : ∀ c ∈ l, ∀ q, PatternNode.beq c q = PatternNode.beq q c) :
    ∀ m, beqChildren m l = beqChildren l m := by
  induction l with
  | nil =>
    intro m
    cases m with
    | nil => rfl
    | cons x xs => rw [beqChildren, beqChildren]
  | cons y ys ih =>
    intro m
    cases m with
    | nil => rw [beqChildren, beqChildren]
    | cons x xs =>
      rw [beqChildren, beqChildren]
      rw [h y (List.mem_cons_self _ _) x,
        ih (fun c hc => h c (List.mem_cons_of_mem _ hc)) xs]

theorem PatternNode.beq_symm (p q : PatternNode) :
    PatternNode.beq p q = PatternNode.beq q p := by
  induction p using PatternNode.patStrongInd generalizing q with
  | _ p ih =>
    cases p with
    | mk ns w v cs =>
      cases q with
      | mk ns' w' v' cs' =>
        rw [PatternNode.beq, PatternNode.beq]
        rw [Bool.beq_comm (a := v'), Bool.beq_comm (a := cs'.length)]
        rw [beqChildren_symm_of cs (fun c hc q' => ih c hc q') cs']

theorem beqChildren_trans_of (l : List PatternNode)
    (h : ∀ c ∈ l, ∀ a b, PatternNode.beq c a = true → PatternNode.beq a b = true →
      PatternNode.beq c b = true) :
    ∀ m k, m.length = l.length → k.length = m.length →
      beqChildren m l = true → beqChildren k m = true → beqChildren k l = true := by
  induction l with
  | nil =>
    intro m k _ _ _ _
    cases k with
    | nil => rw [beqChildren]
    | cons z zs => rw [beqChildren]
  | cons y ys ih =>
    intro m k hm hk h1 h2
    cases m with
    | nil => simp at hm
    | cons x xs =>
      cases k with
      | nil => simp at hk
      | cons z zs =>
        rw [beqChildren] at h1 h2 ⊢
        rw [Bool.and_eq_true] at h1 h2
        have hyx : PatternNode.beq y x = true := by
          rw [PatternNode.beq_symm]; exact h1.1
        have hxz : PatternNode.beq x z = true := by
          rw [PatternNode.beq_symm]; exact h2.1
        have hhead : PatternNode.beq z y = true := by
          rw [← PatternNode.beq_symm]
          exact h y (List.mem_cons_self _ _) x z hyx hxz
        have htail := ih (fun c hc => h c (List.mem_cons_of_mem _ hc)) xs zs
          (by simpa using hm) (by simpa using hk) h1.2 h2.2
        rw [hhead, htail]
        rfl

/-- Transitivity of `__eq__`. -/
theorem PatternNode.beq_trans (p : PatternNode) :
    ∀ q r, PatternNode.beq p q = true → PatternNode.beq q r = true →
      PatternNode.beq p r = true := by
  induction p using PatternNode.patStrongInd with
  | _ p ih =>
    intro q r h1 h2
    cases p with
    | mk ns w v cs =>
      cases q with
      | mk ns' w' v' cs' =>
        cases r with
        | mk ns'' w'' v'' cs'' =>
          rw [PatternNode.beq] at h1 h2 ⊢
          rw [Bool.and_eq_true, Bool.and_eq_true] at h1 h2
          obtain ⟨⟨hv1, hl1⟩, hc1⟩ := h1
          obtain ⟨⟨hv2, hl2⟩, hc2⟩ := h2
          have hv1' : v' = v := eq_of_beq hv1
          have hv2' : v'' = v' := eq_of_beq hv2
          have hl1' : cs'.length = cs.length := by simpa using hl1
          have hl2' : cs''.length = cs'.length := by simpa using hl2
          have hbc := beqChildren_trans_of cs ih cs' cs'' hl1' hl2' hc1 hc2
          rw [hv2', hv1', hl2', hl1', hbc]
          simp

theorem beqChildren_iff_zip : ∀ {m l : List PatternNode}, m.length = l.length →
    (beqChildren m l = true ↔
      ∀ pr ∈ l.zip m, PatternNode.beq pr.1 pr.2 = true) := by
  intro m
  induction m with
  | nil =>
    intro l h
    cases l with
    | nil => simp [beqChildren]
    | cons y ys => simp at h
  | cons x xs ih =>
    intro l h
    cases l with
    | nil => simp at h
    | cons y ys =>
      rw [beqChildren, List.zip_cons_cons, Bool.and_eq_true,
        ih (by simpa using h)]
      constructor
      · rintro ⟨hxy, hrest⟩ pr hpr
        rcases List.mem_cons.mp hpr with rfl | h'
        · show PatternNode.beq y x = true
          rw [PatternNode.beq_symm]
          exact hxy
        · exact hrest pr h'
      · intro hall
        refine ⟨?_, fun pr hpr => hall pr (List.mem_cons_of_mem _ hpr)⟩
        have := hall (y, x) (List.mem_cons_self _ _)
        rw [PatternNode.beq_symm]
        exact this

/-- `__eq__` holds exactly when the values agree and the child lists agree
pairwise in order and count. -/
theorem PatternNode.beq_characterisation (p q : PatternNode) :
    PatternNode.beq p q = true ↔
      (p.value = q.value ∧ p.children.length = q.children.length ∧
        ∀ pr ∈ p.children.zip q.children, PatternNode.beq pr.1 pr.2 = true) := by
  cases p with
  | mk ns w v cs =>
    cases q with
    | mk ns' w' v' cs' =>
      show PatternNode.beq (.mk ns w v cs) (.mk ns' w' v' cs') = true ↔
        (v = v' ∧ cs.length = cs'.length ∧
          ∀ pr ∈ cs.zip cs', PatternNode.beq pr.1 pr.2 = true)
      rw [PatternNode.beq, Bool.and_eq_true, Bool.and_eq_true]
      constructor
      · rintro ⟨⟨hv, hl⟩, hc⟩
        have hv' : v' = v := eq_of_beq hv
        have hl' : cs'.length = cs.length := by simpa using hl
        exact ⟨hv'.symm, hl'.symm, (beqChildren_iff_zip hl').mp hc⟩
      · rintro ⟨hv, hl, hc⟩
        refine ⟨⟨beq_of_eq hv.symm, ?_⟩, (beqChildren_iff_zip hl.symm).mpr hc⟩
        simpa using hl.symm

/-- `__eq__` reads only the `value` and `children` fields: the member-node
lists and the weight fields of both operands are irrelevant. -/
theorem PatternNode.beq_ignores_metadata (ns1 ns2 ns1' ns2' : List TreeNode)
    (w1 w2 w1' w2' : Int) (v v' : String) (c c' : List PatternNode) :
    PatternNode.beq (.mk ns1 w1 v c) (.mk ns1' w1' v' c') =
      PatternNode.beq (.mk ns2 w2 v c) (.mk ns2' w2' v' c') := by
  rw [PatternNode.beq, PatternNode.beq]

/-! ## The web analyzer over an explicit store model (src/web/analyzer.py) -/

/-- `UserInputError(message, code=1)` from src/engine/errors/user_input.py. -/
structure UserInputError where
  message : String
  code : Int

/-- Modelled from the spec: `NodeOrigin` (engine/nodes/nodeorigin, not under
src/) is an immutable (file path, line, column) triple with value equality. -/
structure NodeOrigin where
  file : String
  line : Int
  col_offset : Int

/-- Modelled from the spec: the node objects fed to `_get_pattern_id` and
`_extract_patterns` (engine node classes, not under src/) expose a canonical
type-2 dump (`node.type2_pattern()`), a `weight`, a construct kind
(`node.node.__class__.__name__`) and a `NodeOrigin`; all four are read-only
here, so they are carried as fields. -/
structure PNode where
  dump : String
  weight : Int
  kind : String
  origin : NodeOrigin

/-- One row of the `patterns` table: id, dump, hash, weight, class. -/
structure PatternRecord where
  pid : Nat
  dump : String
  hash : String
  weight : Int
  kind : String

/-- The `patterns` table plus its id sequence. -/
structure PatternStore where
  records : List PatternRecord
  nextId : Nat

/-- Modelled from the spec: `INSERT INTO patterns ... ON CONFLICT DO NOTHING
RETURNING id` against the store's unique key on `hash` (§6: at-most-one row
per hash) — a conflicting insert changes nothing and returns no id, otherwise
a fresh row is appended and its new id returned. -/
def insertPatternOnConflict (st : PatternStore) (dump hash : String)
    (weight : Int) (kind : String) : Option Nat × PatternStore :=
  if st.records.any (fun r => r.hash == hash) then (none, st)
  else (some st.nextId,
    ⟨st.records ++ [⟨st.nextId, dump, hash, weight, kind⟩], st.nextId + 1⟩)

/-- Modelled from the spec: `SELECT id FROM patterns WHERE "hash" = %s`. -/
def selectPatternIdByHash (st : PatternStore) (hash : String) : Option Nat :=
  (st.records.find? (fun r => r.hash == hash)).map (fun r => r.pid)

/-- `_get_pattern_id(conn, node)`: hash the canonical dump, try the
conflict-free insert, and on conflict re-select the existing id by hash.
`md5f` stands for the external `_get_md5`. -/
def get_pattern_id (md5f : String → String) (st : PatternStore) (node : PNode) :
    Option Nat × PatternStore :=
  let dump := node.dump
  let dumpMd5 := md5f dump
  match insertPatternOnConflict st dump dumpMd5 node.weight node.kind with
  | (some pid, st') => (some pid, st')
  | (none, st') => (selectPatternIdByHash st' dumpMd5, st')

/-- One row of the `pattern_instances` table. -/
structure InstanceRecord where
  pattern_id : Option Nat
  commit_id : Nat
  file : String
  line : Int
  col_offset : Int

/-- One row of the `commits` table. -/
structure CommitRecord where
  cid : Nat
  repo_id : Nat
  hash : String

/-- One row of the `clusters` table. -/
structure ClusterRecord where
  clid : Nat
  commit_id : Nat
  value : String
  weight : Int

/-- One row of the `origins` table. -/
structure OriginRecord where
  cluster_id : Nat
  file : String
  line : Int
  col_offset : Int
  similarity : Rat

/-- Modelled from the spec: a `DetectedClone` cluster
(engine/results/detected_clone, not under src/) carries the canonical value,
the match weight, and per-origin similarity scores; the origins dictionary is
iterated in insertion order, modelled as an association list. -/
structure DetectedClone where
  value : String
  match_weight : Int
  origins : List (NodeOrigin × Rat)

/-- Modelled from the spec: a `DetectionResult`
(engine/results/detection_result, not under src/) is the ordered collection
of clusters produced by one run. -/
structure DetectionResult where
  clones : List DetectedClone

/-- The whole relational state touched by `analyze_repo`, plus the repo
status column and the id sequences. -/
structure DBState where
  patterns : PatternStore
  instances : List InstanceRecord
  commits : List CommitRecord
  clusters : List ClusterRecord
  origins : List OriginRecord
  statuses : Nat → String
  nextCommitId : Nat
  nextClusterId : Nat

def lastCommitId (db : DBState) : Nat :=
  ((db.commits.getLast?).map (fun c => c.cid)).getD 0

def lastClusterId (db : DBState) : Nat :=
  ((db.clusters.getLast?).map (fun c => c.clid)).getD 0

/-- `INSERT INTO commits (repo_id, hash) VALUES ... RETURNING id`. -/
def insertCommitOp (repo_id : Nat) (hash : String) (db : DBState) : DBState :=
  { db with commits := db.commits ++ [⟨db.nextCommitId, repo_id, hash⟩],
            nextCommitId := db.nextCommitId + 1 }

/-- `INSERT INTO clusters (commit_id, "value", weight) ... RETURNING id`,
with the commit id captured from the preceding commit insert. -/
def insertClusterOp (value : String) (weight : Int) (db : DBState) : DBState :=
  { db with clusters := db.clusters ++
      [⟨db.nextClusterId, lastCommitId db, value, weight⟩],
            nextClusterId := db.nextClusterId + 1 }

/-- `INSERT INTO origins (cluster_id, file, line, col_offset, similarity)`,
with the cluster id captured from the preceding cluster insert. -/
def insertOriginOp (o : NodeOrigin) (s : Rat) (db : DBState) : DBState :=
  { db with origins := db.origins ++
      [⟨lastClusterId db, o.file, o.line, o.col_offset, s⟩] }

/-- `UPDATE repos SET status = (SELECT id FROM states WHERE name = %s)`. -/
def setStatusOp (repo_id : Nat) (name : String) (db : DBState) : DBState :=
  { db with statuses := fun r => if r = repo_id then name else db.statuses r }

/-- The database writes of one iteration of the cluster loop: the cluster row
followed by one origin row per origin. -/
def clusterOps (c : DetectedClone) : List (DBState → DBState) :=
  insertClusterOp c.value c.match_weight ::
    c.origins.map (fun os => insertOriginOp os.1 os.2)

/-- The database writes of the first transaction of `analyze_repo`: commit
row, all cluster and origin rows, and the final `done` status update. -/
def analysisTxnOps (repo_id : Nat) (chash : String) (clones : List DetectedClone) :
    List (DBState → DBState) :=
  insertCommitOp repo_id chash ::
    (clones.flatMap clusterOps ++ [setStatusOp repo_id "done"])

/-- One iteration of the `_extract_patterns` loop: intern the node's pattern,
then append one `pattern_instances` row for the node. -/
def extractNodeOp (md5f : String → String) (commit_id : Nat) (n : PNode)
    (db : DBState) : DBState :=
  let r := get_pattern_id md5f db.patterns n
  { db with patterns := r.2,
            instances := db.instances ++
              [⟨r.1, commit_id, n.origin.file, n.origin.line, n.origin.col_offset⟩] }

/-- `_extract_patterns(conn, commit_id, modules)`: chain all modules together
and process every node in order. -/
def extract_patterns (md5f : String → String) (commit_id : Nat)
    (modules : List (List PNode)) (db : DBState) : DBState :=
  (modules.flatMap (fun m => m)).foldl
    (fun d n => extractNodeOp md5f commit_id n d) db

/-- The database writes of the second transaction of `analyze_repo`, one
composite write per node. -/
def extractTxnOps (md5f : String → String) (commit_id : Nat)
    (modules : List (List PNode)) : List (DBState → DBState) :=
  (modules.flatMap (fun m => m)).map (fun n => extractNodeOp md5f commit_id n)

/-- Run a list of writes inside one transaction.  `failAt` injects a database
error right before the write with that global index; an error aborts the
rest of the block.  On success the state and the next global index are
returned; the caller implements the rollback by discarding the partial
state, which is what `with conn.transaction()` guarantees (modelled from the
spec: the store is transactional, out of scope of the core). -/
def runTxn (failAt : Option Nat) :
    List (DBState → DBState) → DBState → Nat → Except Unit (DBState × Nat)
  | [], db, i => .ok (db, i)
  | op :: rest, db, i =>
    if failAt = some i then .error () else runTxn failAt rest (op db) (i + 1)

/-- Apply a list of writes unconditionally. -/
def applyOps (ops : List (DBState → DBState)) (db : DBState) : DBState :=
  ops.foldl (fun d op => op d) db

/-- Modelled from the spec: `run_single_repo(modules, algorithm)`
(engine/algorithms/algorithm_runner, not under src/) looks the strategy name
up in the registry of named algorithms and fails with a `UserInputError` for
an unregistered name (§4.4, §7: `UnsupportedStrategy`), otherwise runs the
selected detection function. -/
def run_single_repo (registry : List (String × (List (List PNode) → DetectionResult)))
    (modules : List (List PNode)) (algorithm : String) :
    Except UserInputError DetectionResult :=
  match registry.find? (fun entry => entry.1 == algorithm) with
  | some entry => .ok (entry.2 modules)
  | none => .error ⟨"Unsupported algorithm: " ++ algorithm, 1⟩

/-- Modelled from the spec: `handle_pg_error` (web/pg_error_handler, not
under src/) records the analysis failure on the repository row — it flips the
status to the error state and writes no analysis rows. -/
def handle_pg_error (db : DBState) (repo_id : Nat) : DBState :=
  setStatusOp repo_id "err_analysis" db

/-- The persistence tail of `analyze_repo` (src/web/analyzer.py lines
85-114): run the selected algorithm, then write commit + clusters + origins +
`done` status in one transaction, then run pattern extraction in a second
transaction; a `UserInputError` from the algorithm propagates with nothing
written, and a database error inside either transaction rolls that
transaction back and runs `handle_pg_error` on the pre-transaction state. -/
def analyze_repo_model (registry : List (String × (List (List PNode) → DetectionResult)))
    (md5f : String → String) (db : DBState) (failAt : Option Nat) (repo_id : Nat)
    (chash : String) (modules : List (List PNode)) (algorithm : String) :
    Option UserInputError × DBState :=
  match run_single_repo registry modules algorithm with
  | .error e => (some e, db)
  | .ok result =>
    match runTxn failAt (analysisTxnOps repo_id chash result.clones) db 0 with
    | .error _ => (none, handle_pg_error db repo_id)
    | .ok (db1, n1) =>
      match runTxn failAt (extractTxnOps md5f (lastCommitId db1) modules) db1 n1 with
      | .error _ => (none, handle_pg_error db1 repo_id)
      | .ok (db2, _) => (none, db2)

/-! ## Transaction and store lemmas -/

theorem applyOps_cons (op : DBState → DBState) (rest : List (DBState → DBState))
    (db : DBState) : applyOps (op :: rest) db = applyOps rest (op db) := rfl

theorem runTxn_ok (failAt : Option Nat) (ops : List (DBState → DBState)) :
    ∀ db i, (∀ j, failAt = some j → j < i ∨ i + ops.length ≤ j) →
      runTxn failAt ops db i = .ok (applyOps ops db, i + ops.length) := by
  induction ops with
  | nil =>
    intro db i _
    rw [runTxn]
    simp [applyOps]
  | cons op rest ih =>
    intro db i h
    rw [runTxn]
    have hne : ¬failAt = some i := by
      intro hf
      rcases h i hf with h1 | h2
      · omega
      · simp only [List.length_cons] at h2; omega
    rw [if_neg hne, applyOps_cons, ih (op db) (i + 1) ?_]
    · simp only [List.length_cons]
      have : i + (rest.length + 1) = i + 1 + rest.length := by omega
      rw [this]
    · intro j hj
      rcases h j hj with h1 | h2
      · by_cases hij : j = i
        · exact absurd (hij ▸ hj) hne
        · left; omega
      · right; simp only [List.length_cons] at h2; omega

theorem runTxn_error (failAt : Option Nat) (ops : List (DBState → DBState)) :
    ∀ db i j, failAt = some j → i ≤ j → j < i + ops.length →
      runTxn failAt ops db i = .error () := by
  induction ops with
  | nil =>
    intro db i j _ h1 h2
    simp only [List.length_nil] at h2
    omega
  | cons op rest ih =>
    intro db i j hf h1 h2
    rw [runTxn]
    by_cases hji : j = i
    · rw [if_pos (hji ▸ hf)]
    · rw [if_neg (by rw [hf]; simp; omega)]
      apply ih (op db) (i + 1) j hf (by omega)
      simp only [List.length_cons] at h2
      omega

/-- An operation that leaves the `commits`, `instances` and `patterns`
columns untouched. -/
def PreservesCIP (op : DBState → DBState) : Prop :=
  ∀ db, (op db).commits = db.commits ∧ (op db).instances = db.instances ∧
    (op db).patterns = db.patterns

theorem applyOps_preservesCIP {ops : List (DBState → DBState)}
    (h : ∀ op ∈ ops, PreservesCIP op) : ∀ db,
    (applyOps ops db).commits = db.commits ∧
    (applyOps ops db).instances = db.instances ∧
    (applyOps ops db).patterns = db.patterns := by
  induction ops with
  | nil => intro db; exact ⟨rfl, rfl, rfl⟩
  | cons op rest ih =>
    intro db
    rw [applyOps_cons]
    have h1 := h op (List.mem_cons_self _ _)
    have h2 := ih (fun o ho => h o (List.mem_cons_of_mem _ ho)) (op db)
    obtain ⟨ha, hb, hc⟩ := h1 db
    obtain ⟨ha', hb', hc'⟩ := h2
    exact ⟨ha'.trans ha, hb'.trans hb, hc'.trans hc⟩

theorem analysisTail_preservesCIP (repo_id : Nat) (clones : List DetectedClone) :
    ∀ op ∈ clones.flatMap clusterOps ++ [setStatusOp repo_id "done"],
      PreservesCIP op := by
  intro op hop
  rcases List.mem_append.mp hop with h | h
  · obtain ⟨c, _, hc⟩ := List.mem_flatMap.mp h
    rw [clusterOps] at hc
    rcases List.mem_cons.mp hc with rfl | h'
    · intro db; exact ⟨rfl, rfl, rfl⟩
    · obtain ⟨os, _, rfl⟩ := List.mem_map.mp h'
      intro db; exact ⟨rfl, rfl, rfl⟩
  · rcases List.mem_cons.mp h with rfl | h'
    · intro db; exact ⟨rfl, rfl, rfl⟩
    · cases h'

/-- Applying the whole first transaction appends exactly the commit row to
`commits` and leaves `instances` and `patterns` untouched. -/
theorem analysisTxn_apply (repo_id : Nat) (chash : String)
    (clones : List DetectedClone) (db : DBState) :
    (applyOps (analysisTxnOps repo_id chash clones) db).commits =
      db.commits ++ [⟨db.nextCommitId, repo_id, chash⟩] ∧
    (applyOps (analysisTxnOps repo_id chash clones) db).instances = db.instances ∧
    (applyOps (analysisTxnOps repo_id chash clones) db).patterns = db.patterns := by
  rw [analysisTxnOps, applyOps_cons]
  have h := applyOps_preservesCIP (analysisTail_preservesCIP repo_id clones)
    (insertCommitOp repo_id chash db)
  obtain ⟨ha, hb, hc⟩ := h
  refine ⟨ha.trans rfl, hb.trans rfl, hc.trans rfl⟩

/-- With unique hashes, `find?` by hash returns exactly the matching row. -/
theorem find_unique_hash {records : List PatternRecord} {h : String}
    (hp : records.Pairwise (fun a b => a.hash ≠ b.hash)) {r : PatternRecord}
    (hr : r ∈ records) (hh : r.hash = h) :
    records.find? (fun x => x.hash == h) = some r := by
  induction records with
  | nil => cases hr
  | cons a as ih =>
    rw [List.pairwise_cons] at hp
    rcases List.mem_cons.mp hr with rfl | hr'
    · rw [List.find?_cons_of_pos _ (by simp [hh])]
    · have hne : a.hash ≠ h := by
        intro he
        exact (hp.1 r hr') (he.trans hh.symm)
      rw [List.find?_cons_of_neg _ (by simp [hne])]
      exact ih hp.2 hr'

theorem insertPatternOnConflict_pos {st : PatternStore} {dump hash : String}
    {weight : Int} {kind : String}
    (h : st.records.any (fun r => r.hash == hash) = true) :
    insertPatternOnConflict st dump hash weight kind = (none, st) := by
  rw [insertPatternOnConflict, if_pos h]

theorem insertPatternOnConflict_neg {st : PatternStore} {dump hash : String}
    {weight : Int} {kind : String}
    (h : st.records.any (fun r => r.hash == hash) = false) :
    insertPatternOnConflict st dump hash weight kind =
      (some st.nextId,
        ⟨st.records ++ [⟨st.nextId, dump, hash, weight, kind⟩], st.nextId + 1⟩) := by
  rw [insertPatternOnConflict, if_neg (by simp [h])]

/-- When a row with the node's hash already exists, `_get_pattern_id` returns
its id and leaves the store unchanged. -/
theorem get_pattern_id_hit (md5f : String → String) (st : PatternStore)
    (node : PNode) {r : PatternRecord}
    (hp : st.records.Pairwise (fun a b => a.hash ≠ b.hash))
    (hr : r ∈ st.records) (hh : r.hash = md5f node.dump) :
    get_pattern_id md5f st node = (some r.pid, st) := by
  have hany : st.records.any (fun x => x.hash == md5f node.dump) = true :=
    List.any_eq_true.mpr ⟨r, hr, by simp [hh]⟩
  rw [get_pattern_id]
  rw [insertPatternOnConflict_pos hany]
  show (selectPatternIdByHash st (md5f node.dump), st) = (some r.pid, st)
  unfold selectPatternIdByHash
  rw [find_unique_hash hp hr hh]
  rfl

/-- When no row with the node's hash exists, `_get_pattern_id` appends one
and returns its fresh id. -/
theorem get_pattern_id_miss (md5f : String → String) (st : PatternStore)
    (node : PNode)
    (hany : st.records.any (fun x => x.hash == md5f node.dump) = false) :
    get_pattern_id md5f st node =
      (some st.nextId,
        ⟨st.records ++
          [⟨st.nextId, node.dump, md5f node.dump, node.weight, node.kind⟩],
          st.nextId + 1⟩) := by
  rw [get_pattern_id, insertPatternOnConflict_neg hany]

/-- `_get_pattern_id` is idempotent and keeps at most one row per hash. -/
theorem get_pattern_id_idem (md5f : String → String) (st : PatternStore)
    (node : PNode)
    (hp : st.records.Pairwise (fun a b => a.hash ≠ b.hash)) :
    (get_pattern_id md5f (get_pattern_id md5f st node).2 node).1 =
        (get_pattern_id md5f st node).1 ∧
    (get_pattern_id md5f (get_pattern_id md5f st node).2 node).2 =
        (get_pattern_id md5f st node).2 ∧
    (get_pattern_id md5f st node).2.records.Pairwise
      (fun a b => a.hash ≠ b.hash) := by
  by_cases hany : st.records.any (fun x => x.hash == md5f node.dump) = true
  · obtain ⟨r, hr, hrh⟩ := List.any_eq_true.mp hany
    have hh : r.hash = md5f node.dump := by simpa using hrh
    have h1 := get_pattern_id_hit md5f st node hp hr hh
    rw [h1]
    exact ⟨by rw [h1], by rw [h1], hp⟩
  · have hany' : st.records.any (fun x => x.hash == md5f node.dump) = false :=
      Bool.not_eq_true _ ▸ eq_false_of_ne_true hany
    have h1 := get_pattern_id_miss md5f st node hany'
    have hall := List.any_eq_false.mp hany'
    have hpnew : (st.records ++
        [(⟨st.nextId, node.dump, md5f node.dump, node.weight, node.kind⟩ :
          PatternRecord)]).Pairwise (fun a b => a.hash ≠ b.hash) := by
      rw [List.pairwise_append]
      refine ⟨hp, ?_, ?_⟩
      · simp
      · intro a ha b hb
        rcases List.mem_cons.mp hb with rfl | hb'
        · have := hall a ha
          simpa using this
        · cases hb'
    have hmem : (⟨st.nextId, node.dump, md5f node.dump, node.weight,
        node.kind⟩ : PatternRecord) ∈ st.records ++
          [⟨st.nextId, node.dump, md5f node.dump, node.weight, node.kind⟩] :=
      List.mem_append_right _ (List.mem_cons_self _ _)
    have h2 := get_pattern_id_hit md5f
      ⟨st.records ++
        [⟨st.nextId, node.dump, md5f node.dump, node.weight, node.kind⟩],
        st.nextId + 1⟩ node hpnew hmem rfl
    rw [h1]
    exact ⟨by rw [h2], by rw [h2], hpnew⟩

/-- The instance rows appended by the extraction fold: one per node, in
order, carrying the commit id and the node's origin. -/
theorem extract_fold_instances (md5f : String → String) (cid : Nat) :
    ∀ (ns : List PNode) (db : DBState),
      (ns.foldl (fun d n => extractNodeOp md5f cid n d) db).instances.map
          (fun i => (i.commit_id, i.file, i.line, i.col_offset)) =
        db.instances.map (fun i => (i.commit_id, i.file, i.line, i.col_offset)) ++
          ns.map (fun n => (cid, n.origin.file, n.origin.line, n.origin.col_offset)) := by
  intro ns
  induction ns with
  | nil => intro db; simp
  | cons n rest ih =>
    intro db
    rw [List.foldl_cons, ih]
    simp [extractNodeOp]

/-! ## Concrete sample values used by witnesses and counterexamples -/

/-- A leaf `ast.Name` node with identifier text `x`. -/
def sampleAst : ASTNode := ASTNode.mk 0 "Name" (some "x") []

def sampleTreeNode : TreeNode := TreeNode.init sampleAst

def sampleStore : PatternStore := ⟨[⟨7, "d", "h", 1, "K"⟩], 8⟩

def sampleNode : PNode := ⟨"d", 1, "K", ⟨"a.py", 1, 0⟩⟩

def sampleMd5 : String → String := fun _ => "h"

def sampleDb : DBState := ⟨⟨[], 0⟩, [], [], [], [], fun _ => "queue", 0, 0⟩

def sampleRegistry : List (String × (List (List PNode) → DetectionResult)) :=
  [("oxygen", fun _ => ⟨[]⟩)]

/-! ## The claims -/

/-- C1 (counterexample): the claim says the weight plays no role in equality
even for the weight recorded in a hole position; but two hole patterns built
from the same member nodes that differ only in the weight argument get
different hole-marker `canonicalValue` strings and compare unequal. -/
theorem C1_hole_weight_counterexample :
    (PatternNode.init sampleTreeNode sampleTreeNode 1 none).nodes =
        (PatternNode.init sampleTreeNode sampleTreeNode 2 none).nodes ∧
    (PatternNode.init sampleTreeNode sampleTreeNode 1 none).children =
        (PatternNode.init sampleTreeNode sampleTreeNode 2 none).children ∧
    (PatternNode.init sampleTreeNode sampleTreeNode 1 none).weight ≠
        (PatternNode.init sampleTreeNode sampleTreeNode 2 none).weight ∧
    PatternNode.beq (PatternNode.init sampleTreeNode sampleTreeNode 1 none)
        (PatternNode.init sampleTreeNode sampleTreeNode 2 none) = false := by
  refine ⟨rfl, rfl, by decide, ?_⟩
  show PatternNode.beq
    (PatternNode.mk [sampleTreeNode, sampleTreeNode] 1 "Hole(weight=1)" [])
    (PatternNode.mk [sampleTreeNode, sampleTreeNode] 2 "Hole(weight=2)" []) = false
  rw [PatternNode.beq, beqChildren]
  decide

/-- C1 (amended): two PatternNodes are equal iff their canonicalValue strings
match exactly and their children sequences are pairwise equal in order and
count; the memberNodes and weight fields play no role in the comparison, so
two patterns that differ only in memberNodes or only in the weight field
compare equal — but a hole's canonicalValue embeds its weight, so comparing
two holes reduces to comparing their weight-bearing marker strings, and holes
built with different weights compare unequal. -/
theorem C1_structural_equality :
    (∀ p q : PatternNode, PatternNode.beq p q = true ↔
      (p.value = q.value ∧ p.children.length = q.children.length ∧
        ∀ pr ∈ p.children.zip q.children, PatternNode.beq pr.1 pr.2 = true)) ∧
    (∀ (ns1 ns2 ns1' ns2' : List TreeNode) (w1 w2 w1' w2' : Int) (v v' : String)
        (c c' : List PatternNode),
      PatternNode.beq (.mk ns1 w1 v c) (.mk ns1' w1' v' c') =
        PatternNode.beq (.mk ns2 w2 v c) (.mk ns2' w2' v' c')) ∧
    (∀ (t1 t2 : TreeNode) (w w' : Int),
      PatternNode.beq (PatternNode.init t1 t2 w none)
          (PatternNode.init t1 t2 w' none) =
        (("Hole(weight=" ++ toString w' ++ ")" : String) ==
          ("Hole(weight=" ++ toString w ++ ")" : String))) := by
  refine ⟨PatternNode.beq_characterisation,
    PatternNode.beq_ignores_metadata, ?_⟩
  intro t1 t2 w w'
  show PatternNode.beq
    (PatternNode.mk [t1, t2] w ("Hole(weight=" ++ toString w ++ ")") [])
    (PatternNode.mk [t1, t2] w' ("Hole(weight=" ++ toString w' ++ ")") []) = _
  rw [PatternNode.beq]
  simp [beqChildren]

theorem C1_structural_equality_witness :
    PatternNode.beq (PatternNode.mk [] 3 "Name" [])
      (PatternNode.mk [sampleTreeNode] 7 "Name" []) = true :=
  (C1_structural_equality.1 (PatternNode.mk [] 3 "Name" [])
    (PatternNode.mk [sampleTreeNode] 7 "Name" [])).mpr
      ⟨rfl, rfl, by simp [PatternNode.children]⟩

/-- C2: for every wrapper built from a well-formed parse tree, the multiset
union of the `all_nodes` of the direct children, plus the root node itself,
is exactly the wrapper's `all_nodes`, with every node occurring exactly once. -/
theorem C2_descendant_partition (n : ASTNode) (h : WellFormed n) :
    ((TreeNode.init n).all_nodes : Multiset ASTNode) =
      (TreeNode.init n).node ::ₘ
        (((TreeNode.init n).direct_children).map
          (fun c => ((c.all_nodes : List ASTNode) : Multiset ASTNode))).sum
    ∧ ((TreeNode.init n).all_nodes).Nodup :=
  treeNode_partition h

theorem C2_descendant_partition_witness :
    WellFormed sampleAst ∧
    (((TreeNode.init sampleAst).all_nodes : Multiset ASTNode) =
      (TreeNode.init sampleAst).node ::ₘ
        (((TreeNode.init sampleAst).direct_children).map
          (fun c => ((c.all_nodes : List ASTNode) : Multiset ASTNode))).sum
      ∧ ((TreeNode.init sampleAst).all_nodes).Nodup) :=
  have hwf : WellFormed sampleAst := by
    show ((flatten sampleAst).map ASTNode.oid).Nodup
    decide
  ⟨hwf, C2_descendant_partition sampleAst hwf⟩

/-- C3: the wrapper's `value` is always the grammar-class name, even for a
leaf — the constructor never stores the leaf's concrete literal/identifier
text, contradicting the spec and the constructor's own TODO comment; at the
leaf `Name` node with text `x` the stored value is `Name`, not `x`. -/
theorem C3_leaf_value_is_class_name :
    (∀ n : ASTNode, (TreeNode.init n).value = n.kind) ∧
    (TreeNode.init sampleAst).value = "Name" ∧
    sampleAst.raw = some "x" ∧
    ("Name" : String) ≠ "x" := by
  refine ⟨?_, ?_, rfl, by decide⟩
  · intro n
    rw [TreeNode.init_eq]
    rfl
  · rw [TreeNode.init_eq]
    rfl

/-- C4: constructing a PatternNode with no common value (the hole signal)
yields a node whose canonicalValue is the hole marker embedding the computed
weight, with an empty children sequence and the given weight stored. -/
theorem C4_hole_marker (t1 t2 : TreeNode) (w : Int) :
    (PatternNode.init t1 t2 w none).value =
      "Hole(weight=" ++ toString w ++ ")" ∧
    (PatternNode.init t1 t2 w none).children = [] ∧
    (PatternNode.init t1 t2 w none).weight = w :=
  ⟨rfl, rfl, rfl⟩

/-- C5: `add_nodes` is a pure extension of the member list — weight, value
and children are untouched, and the previous members are kept in order with
the new ones appended after them. -/
theorem C5_add_nodes_frame (p : PatternNode) (ns : List TreeNode) :
    (p.add_nodes ns).weight = p.weight ∧
    (p.add_nodes ns).value = p.value ∧
    (p.add_nodes ns).children = p.children ∧
    (p.add_nodes ns).nodes = p.nodes ++ ns :=
  ⟨rfl, rfl, rfl, rfl⟩

/-- C6: structural equality on PatternNodes is reflexive, symmetric and
transitive, and `__ne__` is its exact negation. -/
theorem C6_equality_equivalence :
    (∀ p : PatternNode, PatternNode.beq p p = true) ∧
    (∀ p q : PatternNode, PatternNode.beq p q = true →
      PatternNode.beq q p = true) ∧
    (∀ p q r : PatternNode, PatternNode.beq p q = true →
      PatternNode.beq q r = true → PatternNode.beq p r = true) ∧
    (∀ p q : PatternNode, PatternNode.ne p q = !(PatternNode.beq p q)) :=
  ⟨PatternNode.beq_refl,
   fun p q h => (PatternNode.beq_symm p q) ▸ h,
   fun p q r h1 h2 => PatternNode.beq_trans p q r h1 h2,
   fun _ _ => rfl⟩

theorem C6_equality_equivalence_witness :
    PatternNode.beq (PatternNode.mk [sampleTreeNode] 2 "Name" [])
      (PatternNode.mk [] 1 "Name" []) = true :=
  C6_equality_equivalence.2.1 (PatternNode.mk [] 1 "Name" [])
    (PatternNode.mk [sampleTreeNode] 2 "Name" [])
    (by rw [PatternNode.beq, beqChildren]; decide)

/-- C7: pattern interning is idempotent — when a record with the node's hash
exists its id is returned and the store is unchanged; running the operation
twice returns the same id and the same store both times; and the store keeps
at most one record per hash. -/
theorem C7_intern_idempotent (md5f : String → String) (st : PatternStore)
    (node : PNode)
    (hp : st.records.Pairwise (fun a b => a.hash ≠ b.hash)) :
    (∀ r ∈ st.records, r.hash = md5f node.dump →
      get_pattern_id md5f st node = (some r.pid, st)) ∧
    (get_pattern_id md5f (get_pattern_id md5f st node).2 node).1 =
        (get_pattern_id md5f st node).1 ∧
    (get_pattern_id md5f (get_pattern_id md5f st node).2 node).2 =
        (get_pattern_id md5f st node).2 ∧
    (get_pattern_id md5f st node).2.records.Pairwise
      (fun a b => a.hash ≠ b.hash) :=
  ⟨fun r hr hh => get_pattern_id_hit md5f st node hp hr hh,
   (get_pattern_id_idem md5f st node hp).1,
   (get_pattern_id_idem md5f st node hp).2.1,
   (get_pattern_id_idem md5f st node hp).2.2⟩

theorem C7_intern_idempotent_witness :
    get_pattern_id sampleMd5 sampleStore sampleNode = (some 7, sampleStore) :=
  (C7_intern_idempotent sampleMd5 sampleStore sampleNode (by simp [sampleStore])).1
    ⟨7, "d", "h", 1, "K"⟩ (by simp [sampleStore]) rfl

/-- C8: pattern extraction appends exactly one instance row per concrete node
across all modules, in order, carrying the commit id and the node's origin —
it never deduplicates, so a pattern occurring n times yields n rows. -/
theorem C8_record_instances_no_dedup (md5f : String → String) (cid : Nat)
    (modules : List (List PNode)) (db : DBState) :
    (extract_patterns md5f cid modules db).instances.map
        (fun i => (i.commit_id, i.file, i.line, i.col_offset)) =
      db.instances.map (fun i => (i.commit_id, i.file, i.line, i.col_offset)) ++
        (modules.flatMap (fun m => m)).map
          (fun n => (cid, n.origin.file, n.origin.line, n.origin.col_offset)) ∧
    (extract_patterns md5f cid modules db).instances.length =
      db.instances.length + (modules.flatMap (fun m => m)).length := by
  have h := extract_fold_instances md5f cid (modules.flatMap (fun m => m)) db
  refine ⟨h, ?_⟩
  have h2 := congrArg List.length h
  simpa using h2

/-- C9: requesting an unregistered strategy fails immediately with the
`UserInputError` raised by the algorithm lookup, and the database state is
returned untouched — no partial result, no rows persisted. -/
theorem C9_unknown_strategy
    (registry : List (String × (List (List PNode) → DetectionResult)))
    (md5f : String → String) (db : DBState) (failAt : Option Nat)
    (repo_id : Nat) (chash : String) (modules : List (List PNode))
    (algorithm : String)
    (h : registry.find? (fun entry => entry.1 == algorithm) = none) :
    analyze_repo_model registry md5f db failAt repo_id chash modules algorithm =
      (some ⟨"Unsupported algorithm: " ++ algorithm, 1⟩, db) := by
  rw [analyze_repo_model, run_single_repo, h]

theorem C9_unknown_strategy_witness :
    analyze_repo_model [] sampleMd5 sampleDb none 1 "c0ffee" [] "bogus" =
      (some ⟨"Unsupported algorithm: " ++ "bogus", 1⟩, sampleDb) :=
  C9_unknown_strategy [] sampleMd5 sampleDb none 1 "c0ffee" [] "bogus" rfl

/-- C10: the analysis persistence is atomic — with a registered algorithm, a
database error at any write of the first transaction leaves the commit,
cluster, origin and instance tables exactly as before and puts the
repository in the error status instead of `done`; a database error during the
later, separate extraction transaction leaves the first transaction's rows
(including the new commit row) in place while the instance table stays
untouched. -/
theorem C10_analysis_transaction_atomic
    (registry : List (String × (List (List PNode) → DetectionResult)))
    (md5f : String → String) (db : DBState) (repo_id : Nat) (chash : String)
    (modules : List (List PNode)) (algorithm : String)
    (entry : String × (List (List PNode) → DetectionResult))
    (hreg : registry.find? (fun e => e.1 == algorithm) = some entry) (j : Nat) :
    (j < (analysisTxnOps repo_id chash (entry.2 modules).clones).length →
      analyze_repo_model registry md5f db (some j) repo_id chash modules
          algorithm = (none, handle_pg_error db repo_id) ∧
      (handle_pg_error db repo_id).commits = db.commits ∧
      (handle_pg_error db repo_id).clusters = db.clusters ∧
      (handle_pg_error db repo_id).origins = db.origins ∧
      (handle_pg_error db repo_id).instances = db.instances ∧
      (handle_pg_error db repo_id).statuses repo_id = "err_analysis") ∧
    ((analysisTxnOps repo_id chash (entry.2 modules).clones).length ≤ j →
      j < (analysisTxnOps repo_id chash (entry.2 modules).clones).length +
        (extractTxnOps md5f
          (lastCommitId (applyOps
            (analysisTxnOps repo_id chash (entry.2 modules).clones) db))
          modules).length →
      analyze_repo_model registry md5f db (some j) repo_id chash modules
          algorithm = (none, handle_pg_error
            (applyOps (analysisTxnOps repo_id chash (entry.2 modules).clones) db)
            repo_id) ∧
      (handle_pg_error
          (applyOps (analysisTxnOps repo_id chash (entry.2 modules).clones) db)
          repo_id).commits =
        db.commits ++ [⟨db.nextCommitId, repo_id, chash⟩] ∧
      (handle_pg_error
          (applyOps (analysisTxnOps repo_id chash (entry.2 modules).clones) db)
          repo_id).instances = db.instances) := by
  have hrun : run_single_repo registry modules algorithm = .ok (entry.2 modules) := by
    rw [run_single_repo, hreg]
  constructor
  · intro hj
    have herr := runTxn_error (some j)
      (analysisTxnOps repo_id chash (entry.2 modules).clones) db 0 j rfl
      (Nat.zero_le j) (by omega)
    constructor
    · rw [analyze_repo_model, hrun]
      dsimp only
      rw [herr]
    · exact ⟨rfl, rfl, rfl, rfl, by simp [handle_pg_error, setStatusOp]⟩
  · intro hj1 hj2
    have hok := runTxn_ok (some j)
      (analysisTxnOps repo_id chash (entry.2 modules).clones) db 0
      (by intro k hk; cases hk; right; omega)
    rw [Nat.zero_add] at hok
    have herr2 := runTxn_error (some j)
      (extractTxnOps md5f
        (lastCommitId (applyOps
          (analysisTxnOps repo_id chash (entry.2 modules).clones) db))
        modules)
      (applyOps (analysisTxnOps repo_id chash (entry.2 modules).clones) db)
      (analysisTxnOps repo_id chash (entry.2 modules).clones).length j rfl hj1 hj2
    have hframe := analysisTxn_apply repo_id chash (entry.2 modules).clones db
    constructor
    · rw [analyze_repo_model, hrun]
      dsimp only
      rw [hok]
      dsimp only
      rw [herr2]
    · exact ⟨hframe.1, hframe.2.1⟩

theorem C10_analysis_transaction_atomic_witness :
    analyze_repo_model sampleRegistry sampleMd5 sampleDb (some 0) 1 "c0ffee"
        [] "oxygen" = (none, handle_pg_error sampleDb 1) ∧
    (handle_pg_error sampleDb 1).commits = sampleDb.commits ∧
    (handle_pg_error sampleDb 1).instances = sampleDb.instances ∧
    (handle_pg_error sampleDb 1).statuses 1 = "err_analysis" :=
  have h := (C10_analysis_transaction_atomic sampleRegistry sampleMd5 sampleDb
    1 "c0ffee" [] "oxygen" ("oxygen", fun _ => ⟨[]⟩) rfl 0).1
    (by simp [analysisTxnOps])
  ⟨h.1, h.2.1, h.2.2.2.2.1, h.2.2.2.2.2⟩
